/-
Verification of the solana-orderbook repository against its natural-language
specification.

The repository ships the Anchor IDL of the on-chain program (with its account
and PDA declarations), the end-to-end lifecycle test, and the TypeScript
client (account resolver, transaction builder, program-id lookup).  The
on-chain matching engine itself is not part of the shipped sources, so the
engine is modelled from the specification (section 4 of spec.md); every
definition modelled that way carries a doc comment saying so.  All other
definitions are direct shallow embeddings of the TypeScript sources.

Machine integers (u64) are modelled as Nat with explicit checked arithmetic
against 2^64.  Addresses (public keys, ATAs, PDAs) are modelled as an
inductive type whose PDA constructors record the derivation seeds, so that
equality of derived addresses is exactly equality of derivation schemes.
-/
import Mathlib

namespace SolanaOrderbook

/-- Addresses: plain public keys, associated token accounts (derived from a
mint and an owner), and program-derived addresses recording their seeds
(a byte-string tag together with one or two account addresses). -/
inductive Addr where
  | key : Nat → Addr
  | ata : Addr → Addr → Addr
  | pda2 : List Nat → Addr → Addr
  | pda3 : List Nat → Addr → Addr → Addr
deriving DecidableEq, Repr

/-- Order side, from the IDL enum Side { Buy, Sell }. -/
inductive Side where
  | Buy : Side
  | Sell : Side
deriving DecidableEq, Repr

/-- Resting order, from the IDL struct Order { owner, price, quantity, order_id }. -/
structure Order where
  owner : Addr
  price : Nat
  quantity : Nat
  order_id : Nat
deriving DecidableEq, Repr

/-- Order book account data, from the IDL struct Orderbook
{ base_mint, quote_mint, bids, asks, order_id_counter }. -/
structure Orderbook where
  baseMint : Addr
  quoteMint : Addr
  bids : List Order
  asks : List Order
  orderIdCounter : Nat
deriving DecidableEq, Repr

/-! ### Client-side resolver (orderbook-data-access.tsx, getRemainingAccounts) -/

/-- The sort comparator used by getRemainingAccounts:
for a buy the candidate asks are compared by ascending price
(a.price.cmp(b.price)), for a sell the candidate bids by descending price
(b.price.cmp(a.price)).  JavaScript Array.prototype.sort is stable, so the
embedding uses a stable insertion sort with this relation. -/
def priceRel (side : Side) (a b : Order) : Prop :=
  match side with
  | Side.Buy => a.price ≤ b.price
  | Side.Sell => b.price ≤ a.price

instance priceRelDecidable (side : Side) : DecidableRel (priceRel side) :=
  fun a b =>
    match side with
    | Side.Buy => (inferInstance : Decidable (a.price ≤ b.price))
    | Side.Sell => (inferInstance : Decidable (b.price ≤ a.price))

/-- The crossing test of getRemainingAccounts: for a buy,
price.gte(order.price); for a sell, price.lte(order.price). -/
def crossesClient (side : Side) (price : Nat) (o : Order) : Bool :=
  match side with
  | Side.Buy => decide (o.price ≤ price)
  | Side.Sell => decide (price ≤ o.price)

/-- getAssociatedTokenAddressSync(mint, owner). -/
def getAssociatedTokenAddressSync (mint owner : Addr) : Addr :=
  Addr.ata mint owner

/-- Shallow embedding of getRemainingAccounts
(orderbook-data-access.tsx lines 84-100): pick the opposite side, sort a copy
by the side's price comparator (stable), then for each crossing order push the
maker's base ATA and quote ATA. -/
def getRemainingAccounts (ob : Orderbook) (side : Side) (price : Nat) : List Addr :=
  let ordersToMatch := match side with | Side.Buy => ob.asks | Side.Sell => ob.bids
  let sortedOrders := List.insertionSort (priceRel side) ordersToMatch
  sortedOrders.flatMap fun order =>
    if crossesClient side price order then
      [getAssociatedTokenAddressSync ob.baseMint order.owner,
       getAssociatedTokenAddressSync ob.quoteMint order.owner]
    else []

/-! ### Matching engine, modelled from the specification -/

/-- Modelled from the spec: the four domain errors of section 7; the engine
source is not in the shipped repository, only its IDL error table. -/
inductive Err where
  | OrderNotFound : Err
  | OrderNotOwned : Err
  | MakerAccountMismatch : Err
  | CalculationError : Err
deriving DecidableEq, Repr

def U64LIMIT : Nat := 2 ^ 64

/-- Modelled from the spec: u64 multiplication that fails on 64-bit overflow. -/
def checkedMul (a b : Nat) : Option Nat :=
  if a * b < U64LIMIT then some (a * b) else none

/-- Modelled from the spec: u64 addition that fails on 64-bit overflow. -/
def checkedAdd (a b : Nat) : Option Nat :=
  if a + b < U64LIMIT then some (a + b) else none

/-- Modelled from the spec: u64 subtraction that fails on underflow. -/
def checkedSub (a b : Nat) : Option Nat :=
  if b ≤ a then some (a - b) else none

/-- Modelled from the spec (section 4.1 step 2): a resting order crosses the
taker's price; for a Buy taker any ask with ask.price ≤ taker.price, for a
Sell taker any bid with bid.price ≥ taker.price. -/
def crosses (side : Side) (takerPrice : Nat) (o : Order) : Prop :=
  match side with
  | Side.Buy => o.price ≤ takerPrice
  | Side.Sell => takerPrice ≤ o.price

instance crossesDecidable (side : Side) (takerPrice : Nat) (o : Order) :
    Decidable (crosses side takerPrice o) :=
  match side with
  | Side.Buy => (inferInstance : Decidable (o.price ≤ takerPrice))
  | Side.Sell => (inferInstance : Decidable (takerPrice ≤ o.price))

/-- Modelled from the spec (section 4.1 step 3): strict priority between two
candidates; best price first (lowest ask price / highest bid price), ties
broken by ascending order_id. -/
def betterPriority (side : Side) (a b : Order) : Prop :=
  match side with
  | Side.Buy => a.price < b.price ∨ (a.price = b.price ∧ a.order_id < b.order_id)
  | Side.Sell => b.price < a.price ∨ (a.price = b.price ∧ a.order_id < b.order_id)

instance betterPriorityDecidable (side : Side) (a b : Order) :
    Decidable (betterPriority side a b) :=
  match side with
  | Side.Buy =>
      (inferInstance : Decidable (a.price < b.price ∨ (a.price = b.price ∧ a.order_id < b.order_id)))
  | Side.Sell =>
      (inferInstance : Decidable (b.price < a.price ∨ (a.price = b.price ∧ a.order_id < b.order_id)))

/-- Modelled from the spec: the highest-priority order of a list (the engine
scans the whole side on each invocation, per section 4.3). -/
def bestOrder (side : Side) : List Order → Option Order
  | [] => none
  | o :: rest =>
    match bestOrder side rest with
    | none => some o
    | some b => if betterPriority side b o then some b else some o

/-- Modelled from the spec: the two custody vaults and the per-owner custody
token balances (the external custody/transfer service of section 6). -/
structure Funds where
  baseVault : Nat
  quoteVault : Nat
  baseBal : Addr → Nat
  quoteBal : Addr → Nat

/-- Modelled from the spec (section 3): the persisted order-book state
together with the funds it custodies. -/
structure EngineState where
  bids : List Order
  asks : List Order
  orderIdCounter : Nat
  funds : Funds

/-- Modelled from the spec: one executed fill (quantity consumed from the
maker order at the maker's posted price; quoteAmount is the quote value
actually transferred for the fill). -/
structure Fill where
  taker : Addr
  maker : Addr
  makerOrderId : Nat
  price : Nat
  quantity : Nat
  quoteAmount : Nat
deriving DecidableEq, Repr

/-- The side of the book an incoming order of the given side matches against
(section 4.1 step 1: a Buy taker crosses asks, a Sell taker crosses bids). -/
def oppositeOf (st : EngineState) (side : Side) : List Order :=
  match side with
  | Side.Buy => st.asks
  | Side.Sell => st.bids

/-- The book side a resting order of the given side lives on
(Buy orders rest in bids, Sell orders in asks). -/
def sameSideOf (st : EngineState) (side : Side) : List Order :=
  match side with
  | Side.Buy => st.bids
  | Side.Sell => st.asks

/-- Replace the side of the book opposite to the given taker side. -/
def setOpposite (st : EngineState) (side : Side) (l : List Order) : EngineState :=
  match side with
  | Side.Buy => { st with asks := l }
  | Side.Sell => { st with bids := l }

/-- Modelled from the spec (section 4.3, remove_by_id): drop the first order
with the given id, if any. -/
def removeById (oid : Nat) : List Order → List Order
  | [] => []
  | o :: rest => if o.order_id = oid then rest else o :: removeById oid rest

/-- Modelled from the spec (section 4.1 step 4, partial consumption): decrease
the quantity of the first order with the given id. -/
def decreaseQty (oid amt : Nat) : List Order → List Order
  | [] => []
  | o :: rest =>
    if o.order_id = oid then { o with quantity := o.quantity - amt } :: rest
    else o :: decreaseQty oid amt rest

/-- Modelled from the spec (section 4.3, find_by_id). -/
def findById (oid : Nat) : List Order → Option Order
  | [] => none
  | o :: rest => if o.order_id = oid then some o else findById oid rest

/-- Modelled from the spec (section 4.1, fund routing per fill): for a fill
against a resting ask, base units move from the base vault to the taker's
base account and quote units from the taker's quote account to the maker's
quote account; symmetric for a fill against a resting bid.  Every balance
update is checked 64-bit arithmetic. -/
def applyFillTransfers (side : Side) (taker maker : Addr) (q quote : Nat)
    (f : Funds) : Option Funds :=
  match side with
  | Side.Buy =>
    match checkedSub f.baseVault q with
    | none => none
    | some bv =>
      match checkedAdd (f.baseBal taker) q with
      | none => none
      | some tb =>
        match checkedSub (f.quoteBal taker) quote with
        | none => none
        | some tq =>
          let quoteBal1 := Function.update f.quoteBal taker tq
          match checkedAdd (quoteBal1 maker) quote with
          | none => none
          | some mq =>
            some { baseVault := bv, quoteVault := f.quoteVault,
                   baseBal := Function.update f.baseBal taker tb,
                   quoteBal := Function.update quoteBal1 maker mq }
  | Side.Sell =>
    match checkedSub f.quoteVault quote with
    | none => none
    | some qv =>
      match checkedAdd (f.quoteBal taker) quote with
      | none => none
      | some tq =>
        match checkedSub (f.baseBal taker) q with
        | none => none
        | some tb =>
          let baseBal1 := Function.update f.baseBal taker tb
          match checkedAdd (baseBal1 maker) q with
          | none => none
          | some mb =>
            some { baseVault := f.baseVault, quoteVault := qv,
                   baseBal := Function.update baseBal1 maker mb,
                   quoteBal := Function.update f.quoteBal taker tq }

/-- Modelled from the spec (section 4.1 steps 1-5): the matching loop.
While the taker has quantity left and some resting order on the opposite side
crosses, the best candidate is consumed by min(remaining, candidate.quantity)
at the candidate's posted price; the caller-supplied maker account list is
consumed one entry per fill and verified against the maker's identity
(MakerAccountMismatch on failure); a fully consumed candidate is removed, a
partially consumed one keeps its identity with a reduced quantity.  The fuel
argument bounds the number of iterations; placeOrder supplies enough for the
loop to run to completion. -/
def matchLoop (side : Side) (taker : Addr) (takerPrice : Nat) :
    Nat → Nat → List Addr → EngineState → List Fill →
    Except Err (EngineState × List Fill × Nat)
  | 0, qty, _, st, fills => Except.ok (st, fills, qty)
  | fuel + 1, qty, makers, st, fills =>
    if qty = 0 then Except.ok (st, fills, qty)
    else
      match bestOrder side ((oppositeOf st side).filter fun o => decide (crosses side takerPrice o)) with
      | none => Except.ok (st, fills, qty)
      | some b =>
        match makers with
        | [] => Except.error Err.MakerAccountMismatch
        | m :: restMakers =>
          if m = b.owner then
            let fillQty := min qty b.quantity
            match checkedMul b.price fillQty with
            | none => Except.error Err.CalculationError
            | some quote =>
              match applyFillTransfers side taker b.owner fillQty quote st.funds with
              | none => Except.error Err.CalculationError
              | some funds2 =>
                let st2 : EngineState := { st with funds := funds2 }
                let st3 :=
                  if fillQty = b.quantity then
                    setOpposite st2 side (removeById b.order_id (oppositeOf st2 side))
                  else
                    setOpposite st2 side (decreaseQty b.order_id fillQty (oppositeOf st2 side))
                matchLoop side taker takerPrice fuel (qty - fillQty) restMakers st3
                  (fills ++ [⟨taker, b.owner, b.order_id, b.price, fillQty, quote⟩])
          else Except.error Err.MakerAccountMismatch

/-- Modelled from the spec (sections 4.1 step 6 and 4.2): place_order runs the
matching loop against the opposite side and then escrows any unmatched
remainder as a new resting order on the taker's side: the remainder's
notional (price×quantity for a bid, quantity for an ask) moves from the
taker's custody account into the corresponding vault, the order receives the
current order_id_counter value and the counter increments.  All arithmetic is
checked; any failure aborts the whole call with no state change. -/
def placeOrder (st : EngineState) (taker : Addr) (side : Side)
    (price qty : Nat) (makers : List Addr) :
    Except Err (EngineState × List Fill) :=
  match matchLoop side taker price ((oppositeOf st side).length + 2) qty makers st [] with
  | Except.error e => Except.error e
  | Except.ok (st1, fills, leftover) =>
    if leftover = 0 then Except.ok (st1, fills)
    else
      match side with
      | Side.Buy =>
        match checkedMul price leftover with
        | none => Except.error Err.CalculationError
        | some notionalQ =>
          match checkedSub (st1.funds.quoteBal taker) notionalQ with
          | none => Except.error Err.CalculationError
          | some tq =>
            match checkedAdd st1.funds.quoteVault notionalQ with
            | none => Except.error Err.CalculationError
            | some qv =>
              Except.ok ({ st1 with
                bids := st1.bids ++ [⟨taker, price, leftover, st1.orderIdCounter⟩],
                orderIdCounter := st1.orderIdCounter + 1,
                funds := { st1.funds with
                  quoteVault := qv,
                  quoteBal := Function.update st1.funds.quoteBal taker tq } }, fills)
      | Side.Sell =>
        match checkedSub (st1.funds.baseBal taker) leftover with
        | none => Except.error Err.CalculationError
        | some tb =>
          match checkedAdd st1.funds.baseVault leftover with
          | none => Except.error Err.CalculationError
          | some bv =>
            Except.ok ({ st1 with
              asks := st1.asks ++ [⟨taker, price, leftover, st1.orderIdCounter⟩],
              orderIdCounter := st1.orderIdCounter + 1,
              funds := { st1.funds with
                baseVault := bv,
                baseBal := Function.update st1.funds.baseBal taker tb } }, fills)

/-- Modelled from the spec (section 4.2): cancel_order searches both
collections for the order id (OrderNotFound when absent), verifies ownership
(OrderNotOwned on mismatch), refunds the full remaining notional from the
vault to the owner's custody account with checked arithmetic, and removes the
order from its collection. -/
def cancelOrder (st : EngineState) (oid : Nat) (caller : Addr) :
    Except Err EngineState :=
  match findById oid st.bids with
  | some o =>
    if o.owner = caller then
      match checkedMul o.price o.quantity with
      | none => Except.error Err.CalculationError
      | some notionalQ =>
        match checkedSub st.funds.quoteVault notionalQ with
        | none => Except.error Err.CalculationError
        | some qv =>
          match checkedAdd (st.funds.quoteBal caller) notionalQ with
          | none => Except.error Err.CalculationError
          | some cq =>
            Except.ok { st with
              bids := removeById oid st.bids,
              funds := { st.funds with
                quoteVault := qv,
                quoteBal := Function.update st.funds.quoteBal caller cq } }
    else Except.error Err.OrderNotOwned
  | none =>
    match findById oid st.asks with
    | some o =>
      if o.owner = caller then
        match checkedSub st.funds.baseVault o.quantity with
        | none => Except.error Err.CalculationError
        | some bv =>
          match checkedAdd (st.funds.baseBal caller) o.quantity with
          | none => Except.error Err.CalculationError
          | some cb =>
            Except.ok { st with
              asks := removeById oid st.asks,
              funds := { st.funds with
                baseVault := bv,
                baseBal := Function.update st.funds.baseBal caller cb } }
      else Except.error Err.OrderNotOwned
    | none => Except.error Err.OrderNotFound

/-- Fills of a place_order result (empty on failure: a failed call produces
no fills). -/
def fillsOf (r : Except Err (EngineState × List Fill)) : List Fill :=
  match r with
  | Except.ok (_, fs) => fs
  | Except.error _ => []

/-- Bids of a place_order result (empty on failure). -/
def stateBids (r : Except Err (EngineState × List Fill)) : List Order :=
  match r with
  | Except.ok (s, _) => s.bids
  | Except.error _ => []

/-- Asks of a place_order result (empty on failure). -/
def stateAsks (r : Except Err (EngineState × List Fill)) : List Order :=
  match r with
  | Except.ok (s, _) => s.asks
  | Except.error _ => []

/-- Whether a place_order call succeeded. -/
def isOk (r : Except Err (EngineState × List Fill)) : Bool :=
  match r with
  | Except.ok _ => true
  | Except.error _ => false

/-- Total base quantity executed by a place_order call. -/
def totalFilled (r : Except Err (EngineState × List Fill)) : Nat :=
  ((fillsOf r).map Fill.quantity).sum

/-- Resting orders of one side: Buy orders rest in bids, Sell orders in asks. -/
def sideOrders (st : EngineState) : Side → List Order
  | Side.Buy => st.bids
  | Side.Sell => st.asks

/-- The other side. -/
def otherSide : Side → Side
  | Side.Buy => Side.Sell
  | Side.Sell => Side.Buy

/-- Remaining notional of a resting order (spec section 4.2): price×quantity
for a bid, quantity for an ask. -/
def sideNotional : Side → Order → Nat
  | Side.Buy, o => o.price * o.quantity
  | Side.Sell, o => o.quantity

/-- The vault backing one side: the quote vault backs bids, the base vault
backs asks. -/
def sideVault (st : EngineState) : Side → Nat
  | Side.Buy => st.funds.quoteVault
  | Side.Sell => st.funds.baseVault

/-- The custody balance an order of one side is refunded into. -/
def sideBal (st : EngineState) : Side → Addr → Nat
  | Side.Buy => st.funds.quoteBal
  | Side.Sell => st.funds.baseBal

/-! ### Address derivation (client vs IDL) -/

/-- Byte values of a textual seed tag (all tags are ASCII). -/
def strBytes (s : String) : List Nat := s.data.map Char.toNat

/-- Constant seed bytes of the orderbook PDA, from the IDL (part_000). -/
def idlOrderbookSeed : List Nat := [111, 114, 100, 101, 114, 98, 111, 111, 107]

/-- Constant seed bytes of the base vault PDA, from the IDL (part_000). -/
def idlBaseVaultSeed : List Nat := [98, 97, 115, 101, 95, 118, 97, 117, 108, 116]

/-- Constant seed bytes of the quote vault PDA, from the IDL (part_000). -/
def idlQuoteVaultSeed : List Nat := [113, 117, 111, 116, 101, 95, 118, 97, 117, 108, 116]

/-- Client-side book derivation (orderbook-data-access.tsx line 37):
findProgramAddressSync([Buffer.from("orderbook"), baseMint, quoteMint]). -/
def clientOrderbookPda (baseMint quoteMint : Addr) : Addr :=
  Addr.pda3 (strBytes "orderbook") baseMint quoteMint

/-- Client-side base vault derivation (orderbook-data-access.tsx line 38):
findProgramAddressSync([Buffer.from("base_vault"), orderbook]). -/
def clientBaseVaultPda (orderbook : Addr) : Addr :=
  Addr.pda2 (strBytes "base_vault") orderbook

/-- Client-side quote vault derivation (orderbook-data-access.tsx line 39):
findProgramAddressSync([Buffer.from("quote_vault"), orderbook]). -/
def clientQuoteVaultPda (orderbook : Addr) : Addr :=
  Addr.pda2 (strBytes "quote_vault") orderbook

/-- On-chain book derivation declared in the IDL: constant seed bytes plus the
base mint and quote mint accounts. -/
def idlOrderbookPda (baseMint quoteMint : Addr) : Addr :=
  Addr.pda3 idlOrderbookSeed baseMint quoteMint

/-- On-chain base vault derivation declared in the IDL: constant seed bytes
plus the orderbook account. -/
def idlBaseVaultPda (orderbook : Addr) : Addr :=
  Addr.pda2 idlBaseVaultSeed orderbook

/-- On-chain quote vault derivation declared in the IDL: constant seed bytes
plus the orderbook account. -/
def idlQuoteVaultPda (orderbook : Addr) : Addr :=
  Addr.pda2 idlQuoteVaultSeed orderbook

/-! ### Program id lookup (orderbook-exports.ts) -/

/-- ORDERBOOK_PROGRAM_ID = new PublicKey(OrderbookIDL.address); the address
field of the IDL. -/
def ORDERBOOK_PROGRAM_ID : String := "2LoSwHzHBVco5nzB6gFyF17DEtd8BhtAwEduHDyv6Nsv"

/-- The devnet/testnet program id literal inside getOrderbookProgramId. -/
def DEVNET_TESTNET_PROGRAM_ID : String := "coUnmi3oBUtwtd9fjeAvSsJssXh5A5xyPbhpewyzRVF"

/-- Shallow embedding of getOrderbookProgramId (orderbook-exports.ts lines
19-29): a switch on the cluster name whose default branch returns
ORDERBOOK_PROGRAM_ID. -/
def getOrderbookProgramId (cluster : String) : String :=
  if cluster = "devnet" then DEVNET_TESTNET_PROGRAM_ID
  else if cluster = "testnet" then DEVNET_TESTNET_PROGRAM_ID
  else ORDERBOOK_PROGRAM_ID

/-! ### Client-side placeOrder transaction builder (orderbook-data-access.tsx) -/

/-- Transaction instructions the placeOrder mutation can emit. -/
inductive Ix where
  | createAta : Addr → Addr → Addr → Addr → Ix
  | place : Addr → Addr → Side → Nat → Nat → Addr → Addr → Addr → Addr → List Addr → Ix
deriving DecidableEq

/-- Shallow embedding of the placeOrder mutation's transaction construction
(orderbook-data-access.tsx lines 103-159): derive the owner's base and quote
ATAs and the two vault PDAs, resolve the maker remaining accounts, push a
create-associated-token-account instruction for each of the two ATAs that
does not exist (accountExists models the getAccount probe), then push the
place-order instruction, and bundle everything into one transaction. -/
def buildPlaceOrderTx (account : Addr) (ob : Orderbook) (owner : Addr)
    (side : Side) (price quantity : Nat) (accountExists : Addr → Bool) : List Ix :=
  let ownerBaseTokenAccount := getAssociatedTokenAddressSync ob.baseMint owner
  let ownerQuoteTokenAccount := getAssociatedTokenAddressSync ob.quoteMint owner
  let baseVault := clientBaseVaultPda account
  let quoteVault := clientQuoteVaultPda account
  let remaining := getRemainingAccounts ob side price
  ((if accountExists ownerBaseTokenAccount then []
    else [Ix.createAta owner ownerBaseTokenAccount owner ob.baseMint]) ++
   (if accountExists ownerQuoteTokenAccount then []
    else [Ix.createAta owner ownerQuoteTokenAccount owner ob.quoteMint])) ++
  [Ix.place account owner side price quantity ownerBaseTokenAccount
    ownerQuoteTokenAccount baseVault quoteVault remaining]

/-! ### Concrete lifecycle state for the partial-fill scenario -/

/-- Initial funds for the partial-fill scenario: empty vaults, each party
holding 100 base units and 1000 quote units in custody. -/
def c2funds : Funds :=
  { baseVault := 0, quoteVault := 0,
    baseBal := fun _ => 100, quoteBal := fun _ => 1000 }

/-- Empty book over the scenario funds. -/
def c2st0 : EngineState :=
  { bids := [], asks := [], orderIdCounter := 0, funds := c2funds }

def c2u1 : Addr := Addr.key 1

def c2u2 : Addr := Addr.key 2

/-- Observable outcome of the partial-fill scenario: run the buy then the
sell and report the final bids, final asks, and the drop in the quote vault
across the sell. -/
def c2result : Option (List Order × List Order × Nat) :=
  match placeOrder c2st0 c2u1 Side.Buy 12 20 [] with
  | Except.error _ => none
  | Except.ok (st1, _) =>
    match placeOrder st1 c2u2 Side.Sell 11 5 [c2u1] with
    | Except.error _ => none
    | Except.ok (st2, _) =>
      some (st2.bids, st2.asks, st1.funds.quoteVault - st2.funds.quoteVault)

/-- A one-bid book used to exercise cancellation: bid of price 12,
quantity 15, id 7, owned by key 1, backed by a quote vault of 180. -/
def c4st : EngineState :=
  { bids := [⟨Addr.key 1, 12, 15, 7⟩], asks := [], orderIdCounter := 8,
    funds := { baseVault := 0, quoteVault := 180,
               baseBal := fun _ => 100, quoteBal := fun _ => 1000 } }

/-- The collection a taker of the given side matches against in the client's
book data: a buy crosses the asks, a sell crosses the bids. -/
def oppositeSide (ob : Orderbook) : Side → List Order
  | Side.Buy => ob.asks
  | Side.Sell => ob.bids

/-- The engine's priority (spec section 4.1 step 3) as a sortable total
relation: strictly better price first (lower ask price / higher bid price),
equal prices ordered by ascending order id. -/
def priorityLe (side : Side) (a b : Order) : Prop :=
  match side with
  | Side.Buy => a.price < b.price ∨ (a.price = b.price ∧ a.order_id ≤ b.order_id)
  | Side.Sell => b.price < a.price ∨ (a.price = b.price ∧ a.order_id ≤ b.order_id)

instance priorityLeDecidable (side : Side) : DecidableRel (priorityLe side) :=
  fun a b =>
    match side with
    | Side.Buy =>
        (inferInstance : Decidable (a.price < b.price ∨ (a.price = b.price ∧ a.order_id ≤ b.order_id)))
    | Side.Sell =>
        (inferInstance : Decidable (b.price < a.price ∨ (a.price = b.price ∧ a.order_id ≤ b.order_id)))

/-- The candidates the engine would consume for a taker of the given side and
price, listed in the engine's priority order: the crossing resting orders,
best price first, ties broken by ascending order id. -/
def enginePriorityList (side : Side) (price : Nat) (l : List Order) : List Order :=
  List.insertionSort (priorityLe side) (l.filter fun o => decide (crosses side price o))

/-- A one-ask book used to exercise price improvement: ask of price 10,
quantity 5, id 0, owned by key 1, backed by a base vault of 5. -/
def c3st : EngineState :=
  { bids := [], asks := [⟨Addr.key 1, 10, 5, 0⟩], orderIdCounter := 1,
    funds := { baseVault := 5, quoteVault := 0,
               baseBal := fun _ => 100, quoteBal := fun _ => 1000 } }

/-- A three-ask book (prices 10, 10, 12, ids 1, 2, 3 in insertion order)
matching the spec's price-time-priority example. -/
def c1ob : Orderbook :=
  { baseMint := Addr.key 100, quoteMint := Addr.key 101,
    bids := [],
    asks := [⟨Addr.key 1, 10, 1, 1⟩, ⟨Addr.key 2, 10, 1, 2⟩, ⟨Addr.key 1, 12, 1, 3⟩],
    orderIdCounter := 4 }

/-! ### Theorems -/

theorem ok3_inj {α β γ : Type} {a a' : α} {b b' : β} {c c' : γ}
    (h : (Except.ok (a, b, c) : Except Err (α × β × γ)) = Except.ok (a', b', c')) :
    a' = a ∧ b' = b ∧ c' = c := by
  injection h with h1
  injection h1 with ha hbc
  injection hbc with hb hc
  exact ⟨ha.symm, hb.symm, hc.symm⟩

theorem checkedMul_some {a b c : Nat} (h : checkedMul a b = some c) : c = a * b := by
  rw [checkedMul] at h
  split at h
  · exact (Option.some.inj h).symm
  · exact Option.noConfusion h

theorem bestOrder_mem {side : Side} : ∀ {l : List Order} {b : Order},
    bestOrder side l = some b → b ∈ l := by
  intro l
  induction l with
  | nil => intro b h; rw [bestOrder] at h; exact Option.noConfusion h
  | cons x rest ih =>
    intro b h
    rw [bestOrder] at h
    cases hr : bestOrder side rest with
    | none =>
      rw [hr] at h
      have hxb : x = b := Option.some.inj h
      rw [← hxb]
      exact List.mem_cons_self x rest
    | some y =>
      rw [hr] at h
      have h' : (if betterPriority side y x then some y else some x) = some b := h
      by_cases hbp : betterPriority side y x
      · rw [if_pos hbp] at h'
        have hyb : y = b := Option.some.inj h'
        exact List.mem_cons_of_mem x (hyb ▸ ih hr)
      · rw [if_neg hbp] at h'
        have hxb : x = b := Option.some.inj h'
        rw [← hxb]
        exact List.mem_cons_self x rest

theorem removeById_sublist (oid : Nat) :
    ∀ l : List Order, List.Sublist (removeById oid l) l := by
  intro l
  induction l with
  | nil => exact List.Sublist.refl []
  | cons x rest ih =>
    rw [removeById]
    split
    · exact List.sublist_cons_self x rest
    · exact List.Sublist.cons₂ x ih

theorem mem_removeById {oid : Nat} {l : List Order} {o : Order}
    (h : o ∈ removeById oid l) : o ∈ l :=
  List.Sublist.mem h (removeById_sublist oid l)

theorem mem_decreaseQty {oid amt : Nat} : ∀ {l : List Order} {o : Order},
    o ∈ decreaseQty oid amt l →
    o ∈ l ∨ ∃ o₀ ∈ l, o₀.order_id = oid ∧ o = { o₀ with quantity := o₀.quantity - amt } := by
  intro l
  induction l with
  | nil => intro o h; exact absurd h (by simp [decreaseQty])
  | cons x rest ih =>
    intro o h
    rw [decreaseQty] at h
    split at h
    · rcases List.mem_cons.mp h with h1 | h1
      · right
        exact ⟨x, List.mem_cons_self x rest, by assumption, h1⟩
      · left
        exact List.mem_cons_of_mem x h1
    · rcases List.mem_cons.mp h with h1 | h1
      · left
        exact h1 ▸ List.mem_cons_self x rest
      · rcases ih h1 with h2 | ⟨o₀, ho₀, hid, heq⟩
        · exact Or.inl (List.mem_cons_of_mem x h2)
        · exact Or.inr ⟨o₀, List.mem_cons_of_mem x ho₀, hid, heq⟩

theorem decreaseQty_map_id (oid amt : Nat) : ∀ l : List Order,
    (decreaseQty oid amt l).map Order.order_id = l.map Order.order_id := by
  intro l
  induction l with
  | nil => rfl
  | cons x rest ih =>
    rw [decreaseQty]
    split
    · simp
    · simp [ih]

theorem pairwise_id_unique : ∀ {l : List Order},
    (l.Pairwise fun a b => a.order_id ≠ b.order_id) →
    ∀ {a b : Order}, a ∈ l → b ∈ l → a.order_id = b.order_id → a = b := by
  intro l
  induction l with
  | nil => intro _ a b ha; cases ha
  | cons x rest ih =>
    intro hp a b ha hb hid
    obtain ⟨hx, hrest⟩ := List.pairwise_cons.mp hp
    rcases List.mem_cons.mp ha with h1 | h1 <;> rcases List.mem_cons.mp hb with h2 | h2
    · rw [h1, h2]
    · exact absurd (h1 ▸ hid) (hx b h2)
    · exact absurd (h2 ▸ hid).symm (hx a h1)
    · exact ih hrest h1 h2 hid

theorem oppositeOf_setOpposite (st : EngineState) (side : Side) (l : List Order) :
    oppositeOf (setOpposite st side l) side = l := by
  cases side <;> rfl

theorem sameSideOf_setOpposite (st : EngineState) (side : Side) (l : List Order) :
    sameSideOf (setOpposite st side l) side = sameSideOf st side := by
  cases side <;> rfl

theorem oppositeOf_setFunds (st : EngineState) (f : Funds) (side : Side) :
    oppositeOf { st with funds := f } side = oppositeOf st side := by
  cases side <;> rfl

theorem sameSideOf_setFunds (st : EngineState) (f : Funds) (side : Side) :
    sameSideOf { st with funds := f } side = sameSideOf st side := by
  cases side <;> rfl

theorem counter_setOpposite (st : EngineState) (side : Side) (l : List Order) :
    (setOpposite st side l).orderIdCounter = st.orderIdCounter := by
  cases side <;> rfl

/-- C8: the client-side address derivation equals the scheme declared in the
IDL: the book location is derived from the tag "orderbook" with the base and
quote mint identifiers, each vault from its tag with the book's own location,
and the IDL's constant seed byte arrays decode to exactly these three tags. -/
theorem c8_client_derivation_matches_idl :
    (∀ baseMint quoteMint : Addr,
      clientOrderbookPda baseMint quoteMint = idlOrderbookPda baseMint quoteMint) ∧
    (∀ orderbook : Addr, clientBaseVaultPda orderbook = idlBaseVaultPda orderbook) ∧
    (∀ orderbook : Addr, clientQuoteVaultPda orderbook = idlQuoteVaultPda orderbook) ∧
    strBytes "orderbook" = idlOrderbookSeed ∧
    strBytes "base_vault" = idlBaseVaultSeed ∧
    strBytes "quote_vault" = idlQuoteVaultSeed := by
  refine ⟨?_, ?_, ?_, by decide, by decide, by decide⟩
  · intro b q
    show Addr.pda3 (strBytes "orderbook") b q = Addr.pda3 idlOrderbookSeed b q
    rw [show strBytes "orderbook" = idlOrderbookSeed by decide]
  · intro ob
    show Addr.pda2 (strBytes "base_vault") ob = Addr.pda2 idlBaseVaultSeed ob
    rw [show strBytes "base_vault" = idlBaseVaultSeed by decide]
  · intro ob
    show Addr.pda2 (strBytes "quote_vault") ob = Addr.pda2 idlQuoteVaultSeed ob
    rw [show strBytes "quote_vault" = idlQuoteVaultSeed by decide]

/-- C9: getOrderbookProgramId returns the devnet/testnet key for "devnet" and
"testnet" and ORDERBOOK_PROGRAM_ID (the IDL address) for "mainnet-beta" and
every other cluster value, and the two ids differ. -/
theorem c9_program_id_by_cluster :
    getOrderbookProgramId "devnet" = DEVNET_TESTNET_PROGRAM_ID ∧
    getOrderbookProgramId "testnet" = DEVNET_TESTNET_PROGRAM_ID ∧
    (∀ c : String, c ≠ "devnet" → c ≠ "testnet" →
      getOrderbookProgramId c = ORDERBOOK_PROGRAM_ID) ∧
    DEVNET_TESTNET_PROGRAM_ID ≠ ORDERBOOK_PROGRAM_ID := by
  refine ⟨by decide, by decide, ?_, by decide⟩
  intro c h1 h2
  simp [getOrderbookProgramId, h1, h2]

/-- Witness for C9 at the cluster value "mainnet-beta". -/
theorem c9_program_id_by_cluster_witness :
    getOrderbookProgramId "mainnet-beta" = ORDERBOOK_PROGRAM_ID :=
  c9_program_id_by_cluster.2.2.1 "mainnet-beta" (by decide) (by decide)

/-- C2: from an empty book, place_order(Buy, 12, 20) then
place_order(Sell, 11, 5) leaves exactly one resting bid of quantity 15 at
price 12, an empty ask list, and the quote vault decreases by exactly 5×12
across the sell. -/
theorem c2_partial_fill_remainder :
    c2result = some ([⟨c2u1, 12, 15, 0⟩], [], 5 * 12) := by decide

/-- C10: the placeOrder mutation builds a single transaction containing a
create-associated-token-account instruction for exactly those of the owner's
base and quote ATAs that do not exist (zero, one, or two of them), followed
by the place-order instruction as the last instruction, carrying the
resolver's maker account list as its remaining accounts. -/
theorem c10_placeOrder_tx_shape (account : Addr) (ob : Orderbook) (owner : Addr)
    (side : Side) (price quantity : Nat) (accountExists : Addr → Bool) :
    ∃ pre : List Ix,
      buildPlaceOrderTx account ob owner side price quantity accountExists =
        pre ++ [Ix.place account owner side price quantity
          (getAssociatedTokenAddressSync ob.baseMint owner)
          (getAssociatedTokenAddressSync ob.quoteMint owner)
          (clientBaseVaultPda account) (clientQuoteVaultPda account)
          (getRemainingAccounts ob side price)] ∧
      (Ix.createAta owner (getAssociatedTokenAddressSync ob.baseMint owner) owner ob.baseMint ∈ pre ↔
        accountExists (getAssociatedTokenAddressSync ob.baseMint owner) = false) ∧
      (Ix.createAta owner (getAssociatedTokenAddressSync ob.quoteMint owner) owner ob.quoteMint ∈ pre ↔
        accountExists (getAssociatedTokenAddressSync ob.quoteMint owner) = false) ∧
      pre.length =
        (if accountExists (getAssociatedTokenAddressSync ob.baseMint owner) then 0 else 1) +
        (if accountExists (getAssociatedTokenAddressSync ob.quoteMint owner) then 0 else 1) ∧
      (∀ ix ∈ pre,
        ix = Ix.createAta owner (getAssociatedTokenAddressSync ob.baseMint owner) owner ob.baseMint ∨
        ix = Ix.createAta owner (getAssociatedTokenAddressSync ob.quoteMint owner) owner ob.quoteMint) := by
  refine ⟨(if accountExists (getAssociatedTokenAddressSync ob.baseMint owner) then []
      else [Ix.createAta owner (getAssociatedTokenAddressSync ob.baseMint owner) owner ob.baseMint]) ++
    (if accountExists (getAssociatedTokenAddressSync ob.quoteMint owner) then []
      else [Ix.createAta owner (getAssociatedTokenAddressSync ob.quoteMint owner) owner ob.quoteMint]),
    rfl, ?_, ?_, ?_, ?_⟩ <;>
  cases hb : accountExists (getAssociatedTokenAddressSync ob.baseMint owner) <;>
    cases hq : accountExists (getAssociatedTokenAddressSync ob.quoteMint owner) <;>
      simp_all [getAssociatedTokenAddressSync] <;>
        first
        | (intro h1; rw [h1] at hb; exact Bool.noConfusion (hb.symm.trans hq))
        | (intro h1; rw [h1] at hq; exact Bool.noConfusion (hq.symm.trans hb))

/-- findById returns none exactly when no order in the list has the id. -/
theorem findById_eq_none_iff (oid : Nat) (l : List Order) :
    findById oid l = none ↔ ∀ o ∈ l, o.order_id ≠ oid := by
  induction l with
  | nil => simp [findById]
  | cons x rest ih =>
    by_cases h : x.order_id = oid
    · simp [findById, h]
    · simp [findById, h, ih]

/-- With pairwise-distinct ids, findById finds exactly the member carrying
the id. -/
theorem findById_eq_some_of_mem (oid : Nat) (l : List Order) (o : Order)
    (hids : l.Pairwise fun a b => a.order_id ≠ b.order_id)
    (hmem : o ∈ l) (hid : o.order_id = oid) :
    findById oid l = some o := by
  induction l with
  | nil => cases hmem
  | cons x rest ih =>
    rcases List.mem_cons.mp hmem with h | h
    · subst h; simp [findById, hid]
    · have hx : ¬ x.order_id = oid := by
        have hne := (List.pairwise_cons.mp hids).1 o h
        omega
      rw [findById, if_neg hx]
      exact ih (List.pairwise_cons.mp hids).2 h

/-- cancelOrder reports OrderNotFound exactly when neither side contains the
id. -/
theorem cancelOrder_notFound_iff (st : EngineState) (oid : Nat) (caller : Addr) :
    cancelOrder st oid caller = Except.error Err.OrderNotFound ↔
      findById oid st.bids = none ∧ findById oid st.asks = none := by
  unfold cancelOrder
  cases h1 : findById oid st.bids with
  | some o =>
    simp only
    repeat' split
    all_goals simp
  | none =>
    cases h2 : findById oid st.asks with
    | some o =>
      simp only
      repeat' split
      all_goals simp
    | none => simp

/-- C5: cancel_order fails with OrderNotFound exactly when no resting order
with the id exists in either collection, and fails with OrderNotOwned when
the order exists but its owner differs from the caller; the model returns an
error and no successor state in both cases, so the book, vaults and custody
accounts are untouched. -/
theorem c5_cancel_error_conditions (st : EngineState) (oid : Nat) (caller : Addr)
    (hids : (st.bids ++ st.asks).Pairwise fun a b => a.order_id ≠ b.order_id) :
    (cancelOrder st oid caller = Except.error Err.OrderNotFound ↔
      ∀ o ∈ st.bids ++ st.asks, o.order_id ≠ oid) ∧
    (∀ o ∈ st.bids ++ st.asks, o.order_id = oid → o.owner ≠ caller →
      cancelOrder st oid caller = Except.error Err.OrderNotOwned) := by
  obtain ⟨hb, ha, -⟩ := List.pairwise_append.mp hids
  constructor
  · rw [cancelOrder_notFound_iff, findById_eq_none_iff, findById_eq_none_iff]
    constructor
    · rintro ⟨h1, h2⟩ o hmem
      rcases List.mem_append.mp hmem with h | h
      · exact h1 o h
      · exact h2 o h
    · intro h
      exact ⟨fun o ho => h o (List.mem_append.mpr (Or.inl ho)),
             fun o ho => h o (List.mem_append.mpr (Or.inr ho))⟩
  · intro o hmem hid hown
    rcases List.mem_append.mp hmem with h | h
    · have hfind := findById_eq_some_of_mem oid st.bids o hb h hid
      rw [cancelOrder, hfind]
      simp only [if_neg hown]
    · have hnone : findById oid st.bids = none := by
        rw [findById_eq_none_iff]
        intro x hx
        have hcross := (List.pairwise_append.mp hids).2.2 x (by exact hx) o h
        omega
      have hfind := findById_eq_some_of_mem oid st.asks o ha h hid
      rw [cancelOrder, hnone, hfind]
      simp only [if_neg hown]

/-- Witness for C5: on a book with one bid (id 7, owner key 1), cancelling
id 9999 yields OrderNotFound and key 2 cancelling id 7 yields OrderNotOwned. -/
theorem c5_cancel_error_conditions_witness :
    cancelOrder c4st 9999 (Addr.key 1) = Except.error Err.OrderNotFound ∧
    cancelOrder c4st 7 (Addr.key 2) = Except.error Err.OrderNotOwned := by
  constructor
  · exact (c5_cancel_error_conditions c4st 9999 (Addr.key 1) (by simp [c4st])).1.mpr (by decide)
  · exact (c5_cancel_error_conditions c4st 7 (Addr.key 2) (by simp [c4st])).2
      ⟨Addr.key 1, 12, 15, 7⟩ (by decide) (by decide) (by decide)

/-- C4: cancelling a resting order owned by the caller succeeds, moves the
order's full remaining notional (price×quantity for a bid, quantity for an
ask) from the backing vault to the owner's custody account, removes the order
from its collection, and leaves the other collection and the other vault
unchanged. -/
theorem c4_cancel_refund (st : EngineState) (side : Side) (o : Order) (caller : Addr)
    (hmem : o ∈ sideOrders st side)
    (hown : o.owner = caller)
    (hids : (st.bids ++ st.asks).Pairwise fun a b => a.order_id ≠ b.order_id)
    (hnot : sideNotional side o < U64LIMIT)
    (hvault : sideNotional side o ≤ sideVault st side)
    (hbal : sideBal st side caller + sideNotional side o < U64LIMIT) :
    ∃ st', cancelOrder st o.order_id caller = Except.ok st' ∧
      sideOrders st' side = removeById o.order_id (sideOrders st side) ∧
      sideOrders st' (otherSide side) = sideOrders st (otherSide side) ∧
      sideVault st' side = sideVault st side - sideNotional side o ∧
      sideBal st' side caller = sideBal st side caller + sideNotional side o ∧
      sideVault st' (otherSide side) = sideVault st (otherSide side) := by
  obtain ⟨hb, ha, hcross⟩ := List.pairwise_append.mp hids
  cases side with
  | Buy =>
    simp only [sideOrders] at hmem
    simp only [sideNotional] at hnot hvault hbal
    simp only [sideVault] at hvault
    simp only [sideBal] at hbal
    have hfind := findById_eq_some_of_mem o.order_id st.bids o hb hmem rfl
    have hmul : checkedMul o.price o.quantity = some (o.price * o.quantity) := by
      rw [checkedMul, if_pos hnot]
    have hsub : checkedSub st.funds.quoteVault (o.price * o.quantity)
        = some (st.funds.quoteVault - o.price * o.quantity) := by
      rw [checkedSub, if_pos hvault]
    have hadd : checkedAdd (st.funds.quoteBal caller) (o.price * o.quantity)
        = some (st.funds.quoteBal caller + o.price * o.quantity) := by
      rw [checkedAdd, if_pos hbal]
    have hres : cancelOrder st o.order_id caller = Except.ok
        { st with bids := removeById o.order_id st.bids,
                  funds := { st.funds with
                    quoteVault := st.funds.quoteVault - o.price * o.quantity,
                    quoteBal := Function.update st.funds.quoteBal caller
                      (st.funds.quoteBal caller + o.price * o.quantity) } } := by
      rw [cancelOrder, hfind]
      simp [hown, hmul, hsub, hadd]
    refine ⟨_, hres, ?_, ?_, ?_, ?_, ?_⟩
    · simp only [sideOrders]
    · simp only [otherSide, sideOrders]
    · simp only [sideVault, sideNotional]
    · simp only [sideBal, sideNotional, Function.update_same]
    · simp only [otherSide, sideVault]
  | Sell =>
    simp only [sideOrders] at hmem
    simp only [sideNotional] at hnot hvault hbal
    simp only [sideVault] at hvault
    simp only [sideBal] at hbal
    have hnone : findById o.order_id st.bids = none := by
      rw [findById_eq_none_iff]
      intro x hx
      exact hcross x hx o hmem
    have hfind := findById_eq_some_of_mem o.order_id st.asks o ha hmem rfl
    have hsub : checkedSub st.funds.baseVault o.quantity
        = some (st.funds.baseVault - o.quantity) := by
      rw [checkedSub, if_pos hvault]
    have hadd : checkedAdd (st.funds.baseBal caller) o.quantity
        = some (st.funds.baseBal caller + o.quantity) := by
      rw [checkedAdd, if_pos hbal]
    have hres : cancelOrder st o.order_id caller = Except.ok
        { st with asks := removeById o.order_id st.asks,
                  funds := { st.funds with
                    baseVault := st.funds.baseVault - o.quantity,
                    baseBal := Function.update st.funds.baseBal caller
                      (st.funds.baseBal caller + o.quantity) } } := by
      rw [cancelOrder, hnone, hfind]
      simp [hown, hsub, hadd]
    refine ⟨_, hres, ?_, ?_, ?_, ?_, ?_⟩
    · simp only [sideOrders]
    · simp only [otherSide, sideOrders]
    · simp only [sideVault, sideNotional]
    · simp only [sideBal, sideNotional, Function.update_same]
    · simp only [otherSide, sideVault]

/-- Witness for C4 on the one-bid book: the bid of price 12, quantity 15
owned by key 1 is cancelled, refunding 12×15 quote units. -/
theorem c4_cancel_refund_witness :
    ∃ st', cancelOrder c4st 7 (Addr.key 1) = Except.ok st' ∧
      sideOrders st' Side.Buy = removeById 7 (sideOrders c4st Side.Buy) ∧
      sideOrders st' (otherSide Side.Buy) = sideOrders c4st (otherSide Side.Buy) ∧
      sideVault st' Side.Buy = sideVault c4st Side.Buy - sideNotional Side.Buy ⟨Addr.key 1, 12, 15, 7⟩ ∧
      sideBal st' Side.Buy (Addr.key 1)
        = sideBal c4st Side.Buy (Addr.key 1) + sideNotional Side.Buy ⟨Addr.key 1, 12, 15, 7⟩ ∧
      sideVault st' (otherSide Side.Buy) = sideVault c4st (otherSide Side.Buy) :=
  c4_cancel_refund c4st Side.Buy ⟨Addr.key 1, 12, 15, 7⟩ (Addr.key 1)
    (by decide) rfl (by simp [c4st]) (by decide) (by decide) (by decide)

/-- The matching loop never touches the taker's own side of the book nor the
id counter. -/
theorem matchLoop_taker_side (side : Side) (taker : Addr) (tp : Nat) :
    ∀ (fuel qty : Nat) (makers : List Addr) (st : EngineState) (fills : List Fill)
      (st' : EngineState) (fills' : List Fill) (left : Nat),
      matchLoop side taker tp fuel qty makers st fills = Except.ok (st', fills', left) →
      sameSideOf st' side = sameSideOf st side ∧ st'.orderIdCounter = st.orderIdCounter := by
  intro fuel
  induction fuel with
  | zero =>
    intro qty makers st fills st' fills' left h
    rw [matchLoop] at h
    obtain ⟨rfl, rfl, rfl⟩ := ok3_inj h
    exact ⟨rfl, rfl⟩
  | succ fuel ih =>
    intro qty makers st fills st' fills' left h
    rw [matchLoop] at h
    by_cases h0 : qty = 0
    · rw [if_pos h0] at h
      obtain ⟨rfl, rfl, rfl⟩ := ok3_inj h
      exact ⟨rfl, rfl⟩
    · rw [if_neg h0] at h
      cases hbest : bestOrder side ((oppositeOf st side).filter fun o => decide (crosses side tp o)) with
      | none =>
        rw [hbest] at h
        obtain ⟨rfl, rfl, rfl⟩ := ok3_inj h
        exact ⟨rfl, rfl⟩
      | some b =>
        rw [hbest] at h
        simp only [] at h
        cases makers with
        | nil => exact Except.noConfusion h
        | cons m restMakers =>
          simp only [] at h
          by_cases hm : m = b.owner
          · rw [if_pos hm] at h
            cases hmul : checkedMul b.price (min qty b.quantity) with
            | none => rw [hmul] at h; exact Except.noConfusion h
            | some quote =>
              rw [hmul] at h
              simp only [] at h
              cases htr : applyFillTransfers side taker b.owner (min qty b.quantity) quote st.funds with
              | none => rw [htr] at h; exact Except.noConfusion h
              | some funds2 =>
                rw [htr] at h
                simp only [] at h
                by_cases hfq : min qty b.quantity = b.quantity
                · rw [if_pos hfq] at h
                  obtain ⟨h1, h2⟩ := ih _ _ _ _ _ _ _ h
                  rw [sameSideOf_setOpposite, sameSideOf_setFunds] at h1
                  rw [counter_setOpposite] at h2
                  exact ⟨h1, h2⟩
                · rw [if_neg hfq] at h
                  obtain ⟨h1, h2⟩ := ih _ _ _ _ _ _ _ h
                  rw [sameSideOf_setOpposite, sameSideOf_setFunds] at h1
                  rw [counter_setOpposite] at h2
                  exact ⟨h1, h2⟩
          · rw [if_neg hm] at h
            exact Except.noConfusion h

/-- Every order on the opposite side after the matching loop descends from an
order resting there before: same id, owner and price, with a quantity that
can only have decreased. -/
theorem matchLoop_opposite_trace (side : Side) (taker : Addr) (tp : Nat) :
    ∀ (fuel qty : Nat) (makers : List Addr) (st : EngineState) (fills : List Fill)
      (st' : EngineState) (fills' : List Fill) (left : Nat),
      matchLoop side taker tp fuel qty makers st fills = Except.ok (st', fills', left) →
      ∀ o ∈ oppositeOf st' side, ∃ o₀ ∈ oppositeOf st side,
        o₀.order_id = o.order_id ∧ o₀.owner = o.owner ∧ o₀.price = o.price ∧
        o.quantity ≤ o₀.quantity := by
  intro fuel
  induction fuel with
  | zero =>
    intro qty makers st fills st' fills' left h
    rw [matchLoop] at h
    obtain ⟨rfl, rfl, rfl⟩ := ok3_inj h
    exact fun o ho => ⟨o, ho, rfl, rfl, rfl, Nat.le_refl _⟩
  | succ fuel ih =>
    intro qty makers st fills st' fills' left h
    rw [matchLoop] at h
    by_cases h0 : qty = 0
    · rw [if_pos h0] at h
      obtain ⟨rfl, rfl, rfl⟩ := ok3_inj h
      exact fun o ho => ⟨o, ho, rfl, rfl, rfl, Nat.le_refl _⟩
    · rw [if_neg h0] at h
      cases hbest : bestOrder side ((oppositeOf st side).filter fun o => decide (crosses side tp o)) with
      | none =>
        rw [hbest] at h
        obtain ⟨rfl, rfl, rfl⟩ := ok3_inj h
        exact fun o ho => ⟨o, ho, rfl, rfl, rfl, Nat.le_refl _⟩
      | some b =>
        rw [hbest] at h
        simp only [] at h
        cases makers with
        | nil => exact Except.noConfusion h
        | cons m restMakers =>
          simp only [] at h
          by_cases hm : m = b.owner
          · rw [if_pos hm] at h
            cases hmul : checkedMul b.price (min qty b.quantity) with
            | none => rw [hmul] at h; exact Except.noConfusion h
            | some quote =>
              rw [hmul] at h
              simp only [] at h
              cases htr : applyFillTransfers side taker b.owner (min qty b.quantity) quote st.funds with
              | none => rw [htr] at h; exact Except.noConfusion h
              | some funds2 =>
                rw [htr] at h
                simp only [] at h
                by_cases hfq : min qty b.quantity = b.quantity
                · rw [if_pos hfq] at h
                  intro o ho
                  obtain ⟨o₁, ho₁, hid1, hown1, hpr1, hq1⟩ := ih _ _ _ _ _ _ _ h o ho
                  rw [oppositeOf_setOpposite] at ho₁
                  have h2 := mem_removeById ho₁
                  rw [oppositeOf_setFunds] at h2
                  exact ⟨o₁, h2, hid1, hown1, hpr1, hq1⟩
                · rw [if_neg hfq] at h
                  intro o ho
                  obtain ⟨o₁, ho₁, hid1, hown1, hpr1, hq1⟩ := ih _ _ _ _ _ _ _ h o ho
                  rw [oppositeOf_setOpposite] at ho₁
                  rcases mem_decreaseQty ho₁ with h2 | ⟨o₀, ho₀, hid0, heq⟩
                  · rw [oppositeOf_setFunds] at h2
                    exact ⟨o₁, h2, hid1, hown1, hpr1, hq1⟩
                  · rw [oppositeOf_setFunds] at ho₀
                    refine ⟨o₀, ho₀, ?_, ?_, ?_, ?_⟩
                    · rw [← hid1, heq]
                    · rw [← hown1, heq]
                    · rw [← hpr1, heq]
                    · exact Nat.le_trans hq1 (by rw [heq]; exact Nat.sub_le _ _)
          · rw [if_neg hm] at h
            exact Except.noConfusion h

/-- The matching loop keeps the opposite side well-formed: all quantities
stay positive (a fully consumed maker is removed in the same step, a partial
consumption leaves a positive remainder) and ids stay pairwise distinct. -/
theorem matchLoop_opposite_wf (side : Side) (taker : Addr) (tp : Nat) :
    ∀ (fuel qty : Nat) (makers : List Addr) (st : EngineState) (fills : List Fill)
      (st' : EngineState) (fills' : List Fill) (left : Nat),
      matchLoop side taker tp fuel qty makers st fills = Except.ok (st', fills', left) →
      (∀ o ∈ oppositeOf st side, 0 < o.quantity) →
      ((oppositeOf st side).Pairwise fun a b => a.order_id ≠ b.order_id) →
      (∀ o ∈ oppositeOf st' side, 0 < o.quantity) ∧
      ((oppositeOf st' side).Pairwise fun a b => a.order_id ≠ b.order_id) := by
  intro fuel
  induction fuel with
  | zero =>
    intro qty makers st fills st' fills' left h hpos hpw
    rw [matchLoop] at h
    obtain ⟨rfl, rfl, rfl⟩ := ok3_inj h
    exact ⟨hpos, hpw⟩
  | succ fuel ih =>
    intro qty makers st fills st' fills' left h hpos hpw
    rw [matchLoop] at h
    by_cases h0 : qty = 0
    · rw [if_pos h0] at h
      obtain ⟨rfl, rfl, rfl⟩ := ok3_inj h
      exact ⟨hpos, hpw⟩
    · rw [if_neg h0] at h
      cases hbest : bestOrder side ((oppositeOf st side).filter fun o => decide (crosses side tp o)) with
      | none =>
        rw [hbest] at h
        obtain ⟨rfl, rfl, rfl⟩ := ok3_inj h
        exact ⟨hpos, hpw⟩
      | some b =>
        rw [hbest] at h
        simp only [] at h
        have hbmem : b ∈ oppositeOf st side :=
          (List.mem_filter.mp (bestOrder_mem hbest)).1
        cases makers with
        | nil => exact Except.noConfusion h
        | cons m restMakers =>
          simp only [] at h
          by_cases hm : m = b.owner
          · rw [if_pos hm] at h
            cases hmul : checkedMul b.price (min qty b.quantity) with
            | none => rw [hmul] at h; exact Except.noConfusion h
            | some quote =>
              rw [hmul] at h
              simp only [] at h
              cases htr : applyFillTransfers side taker b.owner (min qty b.quantity) quote st.funds with
              | none => rw [htr] at h; exact Except.noConfusion h
              | some funds2 =>
                rw [htr] at h
                simp only [] at h
                by_cases hfq : min qty b.quantity = b.quantity
                · rw [if_pos hfq] at h
                  refine ih _ _ _ _ _ _ _ h ?_ ?_
                  · rw [oppositeOf_setOpposite]
                    intro o ho
                    rw [oppositeOf_setFunds] at ho
                    exact hpos o (mem_removeById ho)
                  · rw [oppositeOf_setOpposite, oppositeOf_setFunds]
                    exact List.Pairwise.sublist (removeById_sublist _ _) hpw
                · rw [if_neg hfq] at h
                  have hlt : min qty b.quantity < b.quantity :=
                    Nat.lt_of_le_of_ne (Nat.min_le_right _ _) hfq
                  refine ih _ _ _ _ _ _ _ h ?_ ?_
                  · rw [oppositeOf_setOpposite]
                    intro o ho
                    rw [oppositeOf_setFunds] at ho
                    rcases mem_decreaseQty ho with h2 | ⟨o₀, ho₀, hid0, heq⟩
                    · exact hpos o h2
                    · have hob : o₀ = b := pairwise_id_unique hpw ho₀ hbmem hid0
                      rw [heq, hob]
                      simpa using Nat.sub_pos_of_lt hlt
                  · rw [oppositeOf_setOpposite, oppositeOf_setFunds]
                    have h1 := (List.pairwise_map.mpr hpw :
                      ((oppositeOf st side).map Order.order_id).Pairwise Ne)
                    rw [← decreaseQty_map_id b.order_id (min qty b.quantity)] at h1
                    exact List.pairwise_map.mp h1
          · rw [if_neg hm] at h
            exact Except.noConfusion h

/-- The matching loop's leftover quantity plus the total filled quantity
accounts exactly for the taker's requested quantity. -/
theorem matchLoop_filled_sum (side : Side) (taker : Addr) (tp : Nat) :
    ∀ (fuel qty : Nat) (makers : List Addr) (st : EngineState) (fills : List Fill)
      (st' : EngineState) (fills' : List Fill) (left : Nat),
      matchLoop side taker tp fuel qty makers st fills = Except.ok (st', fills', left) →
      left + (fills'.map Fill.quantity).sum = qty + (fills.map Fill.quantity).sum ∧
      left ≤ qty := by
  intro fuel
  induction fuel with
  | zero =>
    intro qty makers st fills st' fills' left h
    rw [matchLoop] at h
    obtain ⟨rfl, rfl, rfl⟩ := ok3_inj h
    exact ⟨rfl, Nat.le_refl _⟩
  | succ fuel ih =>
    intro qty makers st fills st' fills' left h
    rw [matchLoop] at h
    by_cases h0 : qty = 0
    · rw [if_pos h0] at h
      obtain ⟨rfl, rfl, rfl⟩ := ok3_inj h
      exact ⟨rfl, Nat.le_refl _⟩
    · rw [if_neg h0] at h
      cases hbest : bestOrder side ((oppositeOf st side).filter fun o => decide (crosses side tp o)) with
      | none =>
        rw [hbest] at h
        obtain ⟨rfl, rfl, rfl⟩ := ok3_inj h
        exact ⟨rfl, Nat.le_refl _⟩
      | some b =>
        rw [hbest] at h
        simp only [] at h
        cases makers with
        | nil => exact Except.noConfusion h
        | cons m restMakers =>
          simp only [] at h
          by_cases hm : m = b.owner
          · rw [if_pos hm] at h
            cases hmul : checkedMul b.price (min qty b.quantity) with
            | none => rw [hmul] at h; exact Except.noConfusion h
            | some quote =>
              rw [hmul] at h
              simp only [] at h
              cases htr : applyFillTransfers side taker b.owner (min qty b.quantity) quote st.funds with
              | none => rw [htr] at h; exact Except.noConfusion h
              | some funds2 =>
                rw [htr] at h
                simp only [] at h
                have hmin : min qty b.quantity ≤ qty := Nat.min_le_left _ _
                by_cases hfq : min qty b.quantity = b.quantity
                · rw [if_pos hfq] at h
                  obtain ⟨ih1, ih2⟩ := ih _ _ _ _ _ _ _ h
                  simp only [List.map_append, List.sum_append, List.map_cons, List.map_nil,
                    List.sum_cons, List.sum_nil] at ih1
                  omega
                · rw [if_neg hfq] at h
                  obtain ⟨ih1, ih2⟩ := ih _ _ _ _ _ _ _ h
                  simp only [List.map_append, List.sum_append, List.map_cons, List.map_nil,
                    List.sum_cons, List.sum_nil] at ih1
                  omega
          · rw [if_neg hm] at h
            exact Except.noConfusion h

/-- Every fill the matching loop appends references a maker order resting on
the opposite side when the loop started, executes at that order's posted
price, and transfers exactly price×quantity quote units. -/
theorem matchLoop_fills_trace (side : Side) (taker : Addr) (tp : Nat) :
    ∀ (fuel qty : Nat) (makers : List Addr) (st : EngineState) (fills : List Fill)
      (st' : EngineState) (fills' : List Fill) (left : Nat),
      matchLoop side taker tp fuel qty makers st fills = Except.ok (st', fills', left) →
      ∀ f ∈ fills', f ∈ fills ∨ ∃ o ∈ oppositeOf st side,
        o.order_id = f.makerOrderId ∧ o.owner = f.maker ∧ f.price = o.price ∧
        f.quoteAmount = o.price * f.quantity := by
  intro fuel
  induction fuel with
  | zero =>
    intro qty makers st fills st' fills' left h
    rw [matchLoop] at h
    obtain ⟨rfl, rfl, rfl⟩ := ok3_inj h
    exact fun f hf => Or.inl hf
  | succ fuel ih =>
    intro qty makers st fills st' fills' left h
    rw [matchLoop] at h
    by_cases h0 : qty = 0
    · rw [if_pos h0] at h
      obtain ⟨rfl, rfl, rfl⟩ := ok3_inj h
      exact fun f hf => Or.inl hf
    · rw [if_neg h0] at h
      cases hbest : bestOrder side ((oppositeOf st side).filter fun o => decide (crosses side tp o)) with
      | none =>
        rw [hbest] at h
        obtain ⟨rfl, rfl, rfl⟩ := ok3_inj h
        exact fun f hf => Or.inl hf
      | some b =>
        rw [hbest] at h
        simp only [] at h
        have hbmem : b ∈ oppositeOf st side :=
          (List.mem_filter.mp (bestOrder_mem hbest)).1
        cases makers with
        | nil => exact Except.noConfusion h
        | cons m restMakers =>
          simp only [] at h
          by_cases hm : m = b.owner
          · rw [if_pos hm] at h
            cases hmul : checkedMul b.price (min qty b.quantity) with
            | none => rw [hmul] at h; exact Except.noConfusion h
            | some quote =>
              rw [hmul] at h
              simp only [] at h
              have hquote : quote = b.price * min qty b.quantity := checkedMul_some hmul
              cases htr : applyFillTransfers side taker b.owner (min qty b.quantity) quote st.funds with
              | none => rw [htr] at h; exact Except.noConfusion h
              | some funds2 =>
                rw [htr] at h
                simp only [] at h
                have hnewfill : ∀ f ∈ fills ++ [(⟨taker, b.owner, b.order_id, b.price,
                    min qty b.quantity, quote⟩ : Fill)], f ∈ fills ∨ ∃ o ∈ oppositeOf st side,
                    o.order_id = f.makerOrderId ∧ o.owner = f.maker ∧ f.price = o.price ∧
                    f.quoteAmount = o.price * f.quantity := by
                  intro f hf
                  rcases List.mem_append.mp hf with h1 | h1
                  · exact Or.inl h1
                  · right
                    have hfe : f = ⟨taker, b.owner, b.order_id, b.price,
                        min qty b.quantity, quote⟩ := List.mem_singleton.mp h1
                    rw [hfe]
                    exact ⟨b, hbmem, rfl, rfl, rfl, hquote⟩
                by_cases hfq : min qty b.quantity = b.quantity
                · rw [if_pos hfq] at h
                  intro f hf
                  rcases ih _ _ _ _ _ _ _ h f hf with h1 | ⟨o, ho, hprops⟩
                  · exact hnewfill f h1
                  · right
                    rw [oppositeOf_setOpposite] at ho
                    have h2 := mem_removeById ho
                    rw [oppositeOf_setFunds] at h2
                    exact ⟨o, h2, hprops⟩
                · rw [if_neg hfq] at h
                  intro f hf
                  rcases ih _ _ _ _ _ _ _ h f hf with h1 | ⟨o, ho, hid, hown, hpr, hqa⟩
                  · exact hnewfill f h1
                  · right
                    rw [oppositeOf_setOpposite] at ho
                    rcases mem_decreaseQty ho with h2 | ⟨o₀, ho₀, hid0, heq⟩
                    · rw [oppositeOf_setFunds] at h2
                      exact ⟨o, h2, hid, hown, hpr, hqa⟩
                    · rw [oppositeOf_setFunds] at ho₀
                      refine ⟨o₀, ho₀, ?_, ?_, ?_, ?_⟩
                      · rw [← hid, heq]
                      · rw [← hown, heq]
                      · rw [hpr, heq]
                      · rw [hqa, heq]
          · rw [if_neg hm] at h
            exact Except.noConfusion h

/-- C3: every fill produced by place_order references a maker order that was
resting on the opposite side, executes at that maker's posted price — never
the taker's limit price — and the quote amount transferred for the fill is
exactly that price times the filled quantity. -/
theorem c3_fills_at_maker_price (st : EngineState) (taker : Addr) (side : Side)
    (price qty : Nat) (makers : List Addr) :
    ∀ f ∈ fillsOf (placeOrder st taker side price qty makers),
      ∃ o ∈ oppositeOf st side,
        o.order_id = f.makerOrderId ∧ o.owner = f.maker ∧ f.price = o.price ∧
        f.quoteAmount = o.price * f.quantity := by
  intro f hf
  rw [placeOrder] at hf
  cases hml : matchLoop side taker price ((oppositeOf st side).length + 2) qty makers st [] with
  | error e =>
    rw [hml] at hf
    simp [fillsOf] at hf
  | ok t =>
    obtain ⟨st1, fills, leftover⟩ := t
    rw [hml] at hf
    simp only [] at hf
    have hmem : f ∈ fills := by
      by_cases h0 : leftover = 0
      · rw [if_pos h0] at hf
        simpa [fillsOf] using hf
      · rw [if_neg h0] at hf
        cases side with
        | Buy =>
          cases hA : checkedMul price leftover with
          | none => rw [hA] at hf; simp [fillsOf] at hf
          | some nq =>
            rw [hA] at hf
            simp only [] at hf
            cases hB : checkedSub (st1.funds.quoteBal taker) nq with
            | none => rw [hB] at hf; simp [fillsOf] at hf
            | some tq =>
              rw [hB] at hf
              simp only [] at hf
              cases hC : checkedAdd st1.funds.quoteVault nq with
              | none => rw [hC] at hf; simp [fillsOf] at hf
              | some qv =>
                rw [hC] at hf
                simpa [fillsOf] using hf
        | Sell =>
          cases hA : checkedSub (st1.funds.baseBal taker) leftover with
          | none => rw [hA] at hf; simp [fillsOf] at hf
          | some tb =>
            rw [hA] at hf
            simp only [] at hf
            cases hB : checkedAdd st1.funds.baseVault leftover with
            | none => rw [hB] at hf; simp [fillsOf] at hf
            | some bv =>
              rw [hB] at hf
              simpa [fillsOf] using hf
    rcases matchLoop_fills_trace side taker price _ qty makers st [] st1 fills leftover hml
        f hmem with h1 | h2
    · exact absurd h1 (List.not_mem_nil f)
    · exact h2

/-- Witness for C3: the spec's price-improvement scenario — a buy at price 15
against a resting ask at price 10 fills at price 10, moving 10×5 quote
units. -/
theorem c3_fills_at_maker_price_witness :
    (⟨Addr.key 2, Addr.key 1, 0, 10, 5, 50⟩ : Fill) ∈
      fillsOf (placeOrder c3st (Addr.key 2) Side.Buy 15 5 [Addr.key 1]) ∧
    ∃ o ∈ oppositeOf c3st Side.Buy,
      o.order_id = 0 ∧ o.owner = Addr.key 1 ∧ (10 : Nat) = o.price ∧
      (50 : Nat) = o.price * 5 :=
  ⟨by decide, c3_fills_at_maker_price c3st (Addr.key 2) Side.Buy 15 5 [Addr.key 1]
    ⟨Addr.key 2, Addr.key 1, 0, 10, 5, 50⟩ (by decide)⟩

/-- C7: after a successful place_order every resting order has positive
quantity; every surviving order keeps the id, owner and price of an order
that was already resting, with a quantity that can only have decreased
(a fully consumed maker is removed in the same operation), and an order
carrying the fresh id (the old counter value) rests on the book exactly when
the taker had an unmatched remainder — a fully matched call inserts
nothing. -/
theorem c7_resting_order_invariants (st : EngineState) (taker : Addr) (side : Side)
    (price qty : Nat) (makers : List Addr)
    (hpos : ∀ o ∈ st.bids ++ st.asks, 0 < o.quantity)
    (hids : (st.bids ++ st.asks).Pairwise fun a b => a.order_id ≠ b.order_id)
    (hctr : ∀ o ∈ st.bids ++ st.asks, o.order_id < st.orderIdCounter)
    (hok : isOk (placeOrder st taker side price qty makers) = true) :
    (∀ o ∈ stateBids (placeOrder st taker side price qty makers) ++
        stateAsks (placeOrder st taker side price qty makers), 0 < o.quantity) ∧
    (∀ o ∈ stateBids (placeOrder st taker side price qty makers) ++
        stateAsks (placeOrder st taker side price qty makers),
      (∃ o₀ ∈ st.bids ++ st.asks, o₀.order_id = o.order_id ∧ o₀.owner = o.owner ∧
        o₀.price = o.price ∧ o.quantity ≤ o₀.quantity) ∨
      (o.order_id = st.orderIdCounter ∧ o.owner = taker ∧ o.price = price ∧
        o.quantity = qty - totalFilled (placeOrder st taker side price qty makers) ∧
        totalFilled (placeOrder st taker side price qty makers) < qty)) ∧
    ((∃ o ∈ stateBids (placeOrder st taker side price qty makers) ++
        stateAsks (placeOrder st taker side price qty makers),
        o.order_id = st.orderIdCounter) ↔
      totalFilled (placeOrder st taker side price qty makers) < qty) := by
  have hpos_opp : ∀ o ∈ oppositeOf st side, 0 < o.quantity := by
    intro o ho
    cases side with
    | Buy => exact hpos o (List.mem_append.mpr (Or.inr ho))
    | Sell => exact hpos o (List.mem_append.mpr (Or.inl ho))
  have hpw_opp : (oppositeOf st side).Pairwise fun a b => a.order_id ≠ b.order_id := by
    obtain ⟨hb, ha, -⟩ := List.pairwise_append.mp hids
    cases side with
    | Buy => exact ha
    | Sell => exact hb
  cases hml : matchLoop side taker price ((oppositeOf st side).length + 2) qty makers st [] with
  | error e =>
    rw [placeOrder, hml] at hok
    exact Bool.noConfusion hok
  | ok t =>
    obtain ⟨st1, fills, leftover⟩ := t
    obtain ⟨hside, hctr1⟩ :=
      matchLoop_taker_side side taker price _ qty makers st [] st1 fills leftover hml
    have htrace :=
      matchLoop_opposite_trace side taker price _ qty makers st [] st1 fills leftover hml
    obtain ⟨hpos1, hpw1⟩ :=
      matchLoop_opposite_wf side taker price _ qty makers st [] st1 fills leftover hml
        hpos_opp hpw_opp
    obtain ⟨hsum, hleft⟩ :=
      matchLoop_filled_sum side taker price _ qty makers st [] st1 fills leftover hml
    simp only [List.map_nil, List.sum_nil] at hsum
    by_cases h0 : leftover = 0
    · have hres : placeOrder st taker side price qty makers = Except.ok (st1, fills) := by
        rw [placeOrder, hml]
        try simp only []
        rw [if_pos h0]
      rw [hres]
      simp only [stateBids, stateAsks, totalFilled, fillsOf]
      cases side with
      | Buy =>
        simp only [sameSideOf] at hside
        have hconj2 : ∀ o ∈ st1.bids ++ st1.asks,
            (∃ o₀ ∈ st.bids ++ st.asks, o₀.order_id = o.order_id ∧ o₀.owner = o.owner ∧
              o₀.price = o.price ∧ o.quantity ≤ o₀.quantity) ∨
            (o.order_id = st.orderIdCounter ∧ o.owner = taker ∧ o.price = price ∧
              o.quantity = qty - (fills.map Fill.quantity).sum ∧
              (fills.map Fill.quantity).sum < qty) := by
          intro o ho
          rcases List.mem_append.mp ho with h1 | h1
          · rw [hside] at h1
            exact Or.inl ⟨o, List.mem_append.mpr (Or.inl h1), rfl, rfl, rfl, Nat.le_refl _⟩
          · obtain ⟨o₀, ho₀, hid0, hown0, hpr0, hq0⟩ := htrace o h1
            exact Or.inl ⟨o₀, List.mem_append.mpr (Or.inr ho₀), hid0, hown0, hpr0, hq0⟩
        refine ⟨?_, hconj2, ?_⟩
        · intro o ho
          rcases List.mem_append.mp ho with h1 | h1
          · rw [hside] at h1
            exact hpos o (List.mem_append.mpr (Or.inl h1))
          · exact hpos1 o h1
        · constructor
          · rintro ⟨o, ho, hid⟩
            rcases hconj2 o ho with ⟨o₀, ho₀, hid0, -, -, -⟩ | ⟨-, -, -, -, hlt⟩
            · have := hctr o₀ ho₀
              omega
            · exact hlt
          · intro hlt
            exact absurd hlt (by omega)
      | Sell =>
        simp only [sameSideOf] at hside
        have hconj2 : ∀ o ∈ st1.bids ++ st1.asks,
            (∃ o₀ ∈ st.bids ++ st.asks, o₀.order_id = o.order_id ∧ o₀.owner = o.owner ∧
              o₀.price = o.price ∧ o.quantity ≤ o₀.quantity) ∨
            (o.order_id = st.orderIdCounter ∧ o.owner = taker ∧ o.price = price ∧
              o.quantity = qty - (fills.map Fill.quantity).sum ∧
              (fills.map Fill.quantity).sum < qty) := by
          intro o ho
          rcases List.mem_append.mp ho with h1 | h1
          · obtain ⟨o₀, ho₀, hid0, hown0, hpr0, hq0⟩ := htrace o h1
            exact Or.inl ⟨o₀, List.mem_append.mpr (Or.inl ho₀), hid0, hown0, hpr0, hq0⟩
          · rw [hside] at h1
            exact Or.inl ⟨o, List.mem_append.mpr (Or.inr h1), rfl, rfl, rfl, Nat.le_refl _⟩
        refine ⟨?_, hconj2, ?_⟩
        · intro o ho
          rcases List.mem_append.mp ho with h1 | h1
          · exact hpos1 o h1
          · rw [hside] at h1
            exact hpos o (List.mem_append.mpr (Or.inr h1))
        · constructor
          · rintro ⟨o, ho, hid⟩
            rcases hconj2 o ho with ⟨o₀, ho₀, hid0, -, -, -⟩ | ⟨-, -, -, -, hlt⟩
            · have := hctr o₀ ho₀
              omega
            · exact hlt
          · intro hlt
            exact absurd hlt (by omega)
    · cases side with
      | Buy =>
        cases hA : checkedMul price leftover with
        | none =>
          rw [placeOrder, hml] at hok
          try simp only [] at hok
          rw [if_neg h0] at hok
          try simp only [] at hok
          rw [hA] at hok
          exact Bool.noConfusion hok
        | some nq =>
          cases hB : checkedSub (st1.funds.quoteBal taker) nq with
          | none =>
            rw [placeOrder, hml] at hok
            try simp only [] at hok
            rw [if_neg h0] at hok
            try simp only [] at hok
            rw [hA] at hok
            try simp only [] at hok
            rw [hB] at hok
            exact Bool.noConfusion hok
          | some tq =>
            cases hC : checkedAdd st1.funds.quoteVault nq with
            | none =>
              rw [placeOrder, hml] at hok
              try simp only [] at hok
              rw [if_neg h0] at hok
              try simp only [] at hok
              rw [hA] at hok
              try simp only [] at hok
              rw [hB] at hok
              try simp only [] at hok
              rw [hC] at hok
              exact Bool.noConfusion hok
            | some qv =>
              have hres : placeOrder st taker Side.Buy price qty makers = Except.ok
                  ({ st1 with
                    bids := st1.bids ++ [⟨taker, price, leftover, st1.orderIdCounter⟩],
                    orderIdCounter := st1.orderIdCounter + 1,
                    funds := { st1.funds with
                      quoteVault := qv,
                      quoteBal := Function.update st1.funds.quoteBal taker tq } }, fills) := by
                rw [placeOrder, hml]
                try simp only []
                rw [if_neg h0]
                try simp only []
                rw [hA]
                try simp only []
                rw [hB]
                try simp only []
                rw [hC]
              rw [hres]
              simp only [stateBids, stateAsks, totalFilled, fillsOf]
              simp only [sameSideOf] at hside
              have hnew_qty : leftover = qty - (fills.map Fill.quantity).sum := by omega
              have hfill_lt : (fills.map Fill.quantity).sum < qty := by omega
              have hconj2 : ∀ o ∈ (st1.bids ++ [(⟨taker, price, leftover,
                    st1.orderIdCounter⟩ : Order)]) ++ st1.asks,
                  (∃ o₀ ∈ st.bids ++ st.asks, o₀.order_id = o.order_id ∧ o₀.owner = o.owner ∧
                    o₀.price = o.price ∧ o.quantity ≤ o₀.quantity) ∨
                  (o.order_id = st.orderIdCounter ∧ o.owner = taker ∧ o.price = price ∧
                    o.quantity = qty - (fills.map Fill.quantity).sum ∧
                    (fills.map Fill.quantity).sum < qty) := by
                intro o ho
                rcases List.mem_append.mp ho with h1 | h1
                · rcases List.mem_append.mp h1 with h2 | h2
                  · rw [hside] at h2
                    exact Or.inl ⟨o, List.mem_append.mpr (Or.inl h2), rfl, rfl, rfl, Nat.le_refl _⟩
                  · have ho2 : o = ⟨taker, price, leftover, st1.orderIdCounter⟩ :=
                      List.mem_singleton.mp h2
                    right
                    rw [ho2]
                    exact ⟨hctr1, rfl, rfl, hnew_qty, hfill_lt⟩
                · obtain ⟨o₀, ho₀, hid0, hown0, hpr0, hq0⟩ := htrace o h1
                  exact Or.inl ⟨o₀, List.mem_append.mpr (Or.inr ho₀), hid0, hown0, hpr0, hq0⟩
              refine ⟨?_, hconj2, ?_⟩
              · intro o ho
                rcases List.mem_append.mp ho with h1 | h1
                · rcases List.mem_append.mp h1 with h2 | h2
                  · rw [hside] at h2
                    exact hpos o (List.mem_append.mpr (Or.inl h2))
                  · have ho2 : o = ⟨taker, price, leftover, st1.orderIdCounter⟩ :=
                      List.mem_singleton.mp h2
                    rw [ho2]
                    exact Nat.pos_of_ne_zero h0
                · exact hpos1 o h1
              · constructor
                · rintro ⟨o, ho, hid⟩
                  rcases hconj2 o ho with ⟨o₀, ho₀, hid0, -, -, -⟩ | ⟨-, -, -, -, hlt⟩
                  · have := hctr o₀ ho₀
                    omega
                  · exact hlt
                · intro hlt
                  refine ⟨⟨taker, price, leftover, st1.orderIdCounter⟩, ?_, hctr1⟩
                  exact List.mem_append.mpr (Or.inl (List.mem_append.mpr
                    (Or.inr (List.mem_singleton.mpr rfl))))
      | Sell =>
        cases hA : checkedSub (st1.funds.baseBal taker) leftover with
        | none =>
          rw [placeOrder, hml] at hok
          try simp only [] at hok
          rw [if_neg h0] at hok
          try simp only [] at hok
          rw [hA] at hok
          exact Bool.noConfusion hok
        | some tb =>
          cases hB : checkedAdd st1.funds.baseVault leftover with
          | none =>
            rw [placeOrder, hml] at hok
            try simp only [] at hok
            rw [if_neg h0] at hok
            try simp only [] at hok
            rw [hA] at hok
            try simp only [] at hok
            rw [hB] at hok
            exact Bool.noConfusion hok
          | some bv =>
            have hres : placeOrder st taker Side.Sell price qty makers = Except.ok
                ({ st1 with
                  asks := st1.asks ++ [⟨taker, price, leftover, st1.orderIdCounter⟩],
                  orderIdCounter := st1.orderIdCounter + 1,
                  funds := { st1.funds with
                    baseVault := bv,
                    baseBal := Function.update st1.funds.baseBal taker tb } }, fills) := by
              rw [placeOrder, hml]
              try simp only []
              rw [if_neg h0]
              try simp only []
              rw [hA]
              try simp only []
              rw [hB]
            rw [hres]
            simp only [stateBids, stateAsks, totalFilled, fillsOf]
            simp only [sameSideOf] at hside
            have hnew_qty : leftover = qty - (fills.map Fill.quantity).sum := by omega
            have hfill_lt : (fills.map Fill.quantity).sum < qty := by omega
            have hconj2 : ∀ o ∈ st1.bids ++ (st1.asks ++ [(⟨taker, price, leftover,
                  st1.orderIdCounter⟩ : Order)]),
                (∃ o₀ ∈ st.bids ++ st.asks, o₀.order_id = o.order_id ∧ o₀.owner = o.owner ∧
                  o₀.price = o.price ∧ o.quantity ≤ o₀.quantity) ∨
                (o.order_id = st.orderIdCounter ∧ o.owner = taker ∧ o.price = price ∧
                  o.quantity = qty - (fills.map Fill.quantity).sum ∧
                  (fills.map Fill.quantity).sum < qty) := by
              intro o ho
              rcases List.mem_append.mp ho with h1 | h1
              · obtain ⟨o₀, ho₀, hid0, hown0, hpr0, hq0⟩ := htrace o h1
                exact Or.inl ⟨o₀, List.mem_append.mpr (Or.inl ho₀), hid0, hown0, hpr0, hq0⟩
              · rcases List.mem_append.mp h1 with h2 | h2
                · rw [hside] at h2
                  exact Or.inl ⟨o, List.mem_append.mpr (Or.inr h2), rfl, rfl, rfl, Nat.le_refl _⟩
                · have ho2 : o = ⟨taker, price, leftover, st1.orderIdCounter⟩ :=
                    List.mem_singleton.mp h2
                  right
                  rw [ho2]
                  exact ⟨hctr1, rfl, rfl, hnew_qty, hfill_lt⟩
            refine ⟨?_, hconj2, ?_⟩
            · intro o ho
              rcases List.mem_append.mp ho with h1 | h1
              · exact hpos1 o h1
              · rcases List.mem_append.mp h1 with h2 | h2
                · rw [hside] at h2
                  exact hpos o (List.mem_append.mpr (Or.inr h2))
                · have ho2 : o = ⟨taker, price, leftover, st1.orderIdCounter⟩ :=
                    List.mem_singleton.mp h2
                  rw [ho2]
                  exact Nat.pos_of_ne_zero h0
            · constructor
              · rintro ⟨o, ho, hid⟩
                rcases hconj2 o ho with ⟨o₀, ho₀, hid0, -, -, -⟩ | ⟨-, -, -, -, hlt⟩
                · have := hctr o₀ ho₀
                  omega
                · exact hlt
              · intro hlt
                refine ⟨⟨taker, price, leftover, st1.orderIdCounter⟩, ?_, hctr1⟩
                exact List.mem_append.mpr (Or.inr (List.mem_append.mpr
                  (Or.inr (List.mem_singleton.mpr rfl))))

/-- Witness for C7: a buy of quantity 7 at price 15 against the one-ask book
fully consumes the ask (quantity 5) and rests the remainder (quantity 2)
under the fresh id. -/
theorem c7_resting_order_invariants_witness :
    ((∀ o ∈ c3st.bids ++ c3st.asks, 0 < o.quantity) ∧
     ((c3st.bids ++ c3st.asks).Pairwise fun a b => a.order_id ≠ b.order_id) ∧
     (∀ o ∈ c3st.bids ++ c3st.asks, o.order_id < c3st.orderIdCounter) ∧
     isOk (placeOrder c3st (Addr.key 2) Side.Buy 15 7 [Addr.key 1]) = true) ∧
    ((∀ o ∈ stateBids (placeOrder c3st (Addr.key 2) Side.Buy 15 7 [Addr.key 1]) ++
        stateAsks (placeOrder c3st (Addr.key 2) Side.Buy 15 7 [Addr.key 1]), 0 < o.quantity) ∧
     (∀ o ∈ stateBids (placeOrder c3st (Addr.key 2) Side.Buy 15 7 [Addr.key 1]) ++
        stateAsks (placeOrder c3st (Addr.key 2) Side.Buy 15 7 [Addr.key 1]),
       (∃ o₀ ∈ c3st.bids ++ c3st.asks, o₀.order_id = o.order_id ∧ o₀.owner = o.owner ∧
         o₀.price = o.price ∧ o.quantity ≤ o₀.quantity) ∨
       (o.order_id = c3st.orderIdCounter ∧ o.owner = Addr.key 2 ∧ o.price = 15 ∧
         o.quantity = 7 - totalFilled (placeOrder c3st (Addr.key 2) Side.Buy 15 7 [Addr.key 1]) ∧
         totalFilled (placeOrder c3st (Addr.key 2) Side.Buy 15 7 [Addr.key 1]) < 7)) ∧
     ((∃ o ∈ stateBids (placeOrder c3st (Addr.key 2) Side.Buy 15 7 [Addr.key 1]) ++
         stateAsks (placeOrder c3st (Addr.key 2) Side.Buy 15 7 [Addr.key 1]),
         o.order_id = c3st.orderIdCounter) ↔
       totalFilled (placeOrder c3st (Addr.key 2) Side.Buy 15 7 [Addr.key 1]) < 7)) :=
  ⟨⟨by decide, by decide, by decide, by decide⟩,
   c7_resting_order_invariants c3st (Addr.key 2) Side.Buy 15 7 [Addr.key 1]
     (by decide) (by decide) (by decide) (by decide)⟩

theorem flatMap_if_filter (p : Order → Bool) (f : Order → List Addr) :
    ∀ l : List Order,
      (l.flatMap fun o => if p o then f o else []) = (l.filter p).flatMap f := by
  intro l
  induction l with
  | nil => rfl
  | cons x rest ih =>
    by_cases h : p x <;> simp [List.filter_cons, h, ih]

theorem crossesClient_eq (side : Side) (price : Nat) (o : Order) :
    crossesClient side price o = decide (crosses side price o) := by
  cases side <;> rfl

theorem priceRel_lt_better (side : Side) (x y : Order) (h1 : priceRel side x y)
    (h2 : x.order_id < y.order_id) : betterPriority side x y := by
  cases side <;> simp only [priceRel, betterPriority] at * <;> omega

theorem priceRel_better_trans (side : Side) (x y z : Order) (h1 : priceRel side x y)
    (h2 : betterPriority side y z) : priceRel side x z := by
  cases side <;> simp only [priceRel, betterPriority] at * <;> omega

theorem not_priceRel_better (side : Side) (x y : Order) (h : ¬ priceRel side x y) :
    betterPriority side y x := by
  cases side <;> simp only [priceRel, betterPriority] at * <;> omega

theorem priorityLe_total (side : Side) :
    ∀ a b : Order, priorityLe side a b ∨ priorityLe side b a := by
  intro a b
  cases side <;> simp only [priorityLe] <;> omega

theorem priorityLe_trans (side : Side) :
    ∀ a b c : Order, priorityLe side a b → priorityLe side b c → priorityLe side a c := by
  intro a b c h1 h2
  cases side <;> simp only [priorityLe] at * <;> omega

theorem betterPriority_asymm (side : Side) (a b : Order)
    (h1 : betterPriority side a b) (h2 : betterPriority side b a) : a = b := by
  exfalso
  cases side <;> simp only [betterPriority] at * <;> omega

theorem priorityLe_ne_better (side : Side) (a b : Order) (h1 : priorityLe side a b)
    (h2 : a.order_id ≠ b.order_id) : betterPriority side a b := by
  cases side <;> simp only [priorityLe, betterPriority] at * <;> omega

/-- Stable insertion into a list that is pairwise strictly ordered by the
engine priority, when the inserted element predates (by id) every element of
the list: the result is again pairwise strictly ordered. -/
theorem orderedInsert_pairwise_better (sle : Order → Order → Prop) [DecidableRel sle]
    (slex : Order → Order → Prop)
    (hA : ∀ x y, sle x y → x.order_id < y.order_id → slex x y)
    (hB : ∀ x y z, sle x y → slex y z → sle x z)
    (hC : ∀ x y, ¬ sle x y → slex y x) :
    ∀ (s : List Order) (x : Order), s.Pairwise slex →
      (∀ z ∈ s, x.order_id < z.order_id) →
      (List.orderedInsert sle x s).Pairwise slex := by
  intro s
  induction s with
  | nil =>
    intro x _ _
    simp [List.orderedInsert]
  | cons y ys ih =>
    intro x hs hid
    obtain ⟨hy, hys⟩ := List.pairwise_cons.mp hs
    by_cases hxy : sle x y
    · rw [List.orderedInsert, if_pos hxy]
      refine List.pairwise_cons.mpr ⟨?_, hs⟩
      intro z hz
      rcases List.mem_cons.mp hz with rfl | hz'
      · exact hA x z hxy (hid z (List.mem_cons_self _ _))
      · exact hA x z (hB x y z hxy (hy z hz')) (hid z (List.mem_cons_of_mem _ hz'))
    · rw [List.orderedInsert, if_neg hxy]
      refine List.pairwise_cons.mpr
        ⟨?_, ih x hys (fun z hz => hid z (List.mem_cons_of_mem _ hz))⟩
      intro z hz
      rcases (List.mem_orderedInsert sle).mp hz with heq | hz'
      · rw [heq]
        exact hC x y hxy
      · exact hy z hz'

/-- Stability of insertion sort by a total price comparator: applied to a
list stored in ascending id order (insertion order), it yields a list that is
pairwise strictly ordered by the engine priority — best price first, ties by
ascending id. -/
theorem insertionSort_pairwise_better (sle : Order → Order → Prop) [DecidableRel sle]
    (slex : Order → Order → Prop)
    (hA : ∀ x y, sle x y → x.order_id < y.order_id → slex x y)
    (hB : ∀ x y z, sle x y → slex y z → sle x z)
    (hC : ∀ x y, ¬ sle x y → slex y x) :
    ∀ l : List Order, (l.Pairwise fun a b => a.order_id < b.order_id) →
      (List.insertionSort sle l).Pairwise slex := by
  intro l
  induction l with
  | nil =>
    intro _
    simp [List.insertionSort]
  | cons x xs ih =>
    intro hp
    obtain ⟨hx, hxs⟩ := List.pairwise_cons.mp hp
    rw [List.insertionSort]
    refine orderedInsert_pairwise_better sle slex hA hB hC _ x (ih hxs) ?_
    intro z hz
    exact hx z ((List.perm_insertionSort sle xs).mem_iff.mp hz)

/-- C1: on a book whose bid and ask lists are stored in ascending order-id
(insertion) order, the client resolver getRemainingAccounts returns exactly
one (base ATA, quote ATA) pair per resting order on the opposite side that
crosses the taker's price, in the engine's priority order: best price first,
ties by ascending order id. -/
theorem c1_resolver_matches_engine_priority (ob : Orderbook) (side : Side) (price : Nat)
    (hbids : ob.bids.Pairwise fun a b => a.order_id < b.order_id)
    (hasks : ob.asks.Pairwise fun a b => a.order_id < b.order_id) :
    getRemainingAccounts ob side price =
      (enginePriorityList side price (oppositeSide ob side)).flatMap
        fun o => [getAssociatedTokenAddressSync ob.baseMint o.owner,
                  getAssociatedTokenAddressSync ob.quoteMint o.owner] := by
  have hmatch : (match side with | Side.Buy => ob.asks | Side.Sell => ob.bids)
      = oppositeSide ob side := by
    cases side <;> rfl
  have hL : (oppositeSide ob side).Pairwise fun a b => a.order_id < b.order_id := by
    cases side
    · exact hasks
    · exact hbids
  simp only [getRemainingAccounts]
  rw [hmatch]
  rw [flatMap_if_filter (fun o => crossesClient side price o)
    (fun o => [getAssociatedTokenAddressSync ob.baseMint o.owner,
               getAssociatedTokenAddressSync ob.quoteMint o.owner])]
  suffices hEq : (List.insertionSort (priceRel side) (oppositeSide ob side)).filter
      (fun o => crossesClient side price o) = enginePriorityList side price (oppositeSide ob side) by
    rw [hEq]
  rw [show (fun o => crossesClient side price o)
      = (fun o => decide (crosses side price o)) from
    funext fun o => crossesClient_eq side price o]
  rw [enginePriorityList]
  have h1 : ((List.insertionSort (priceRel side) (oppositeSide ob side)).filter
      fun o => decide (crosses side price o)).Pairwise (betterPriority side) :=
    List.Pairwise.filter _
      (insertionSort_pairwise_better (priceRel side) (betterPriority side)
        (priceRel_lt_better side) (priceRel_better_trans side)
        (not_priceRel_better side) (oppositeSide ob side) hL)
  have hperm1 : ((List.insertionSort (priceRel side) (oppositeSide ob side)).filter
        fun o => decide (crosses side price o)).Perm
      ((oppositeSide ob side).filter fun o => decide (crosses side price o)) :=
    (List.perm_insertionSort (priceRel side) (oppositeSide ob side)).filter _
  have hperm2 : (List.insertionSort (priorityLe side)
        ((oppositeSide ob side).filter fun o => decide (crosses side price o))).Perm
      ((oppositeSide ob side).filter fun o => decide (crosses side price o)) :=
    List.perm_insertionSort _ _
  have hfilterlt : ((oppositeSide ob side).filter
      fun o => decide (crosses side price o)).Pairwise
      fun a b => a.order_id < b.order_id :=
    List.Pairwise.filter _ hL
  have hne2 : (List.insertionSort (priorityLe side)
      ((oppositeSide ob side).filter fun o => decide (crosses side price o))).Pairwise
      fun a b => a.order_id ≠ b.order_id :=
    (List.Perm.pairwise_iff (fun h => Ne.symm h) hperm2).mpr
      (hfilterlt.imp fun h => Nat.ne_of_lt h)
  have hsorted : (List.insertionSort (priorityLe side)
      ((oppositeSide ob side).filter fun o => decide (crosses side price o))).Pairwise
      (priorityLe side) := by
    haveI : IsTotal Order (priorityLe side) := ⟨priorityLe_total side⟩
    haveI : IsTrans Order (priorityLe side) := ⟨priorityLe_trans side⟩
    exact List.sorted_insertionSort (priorityLe side) _
  have h2 : (List.insertionSort (priorityLe side)
      ((oppositeSide ob side).filter fun o => decide (crosses side price o))).Pairwise
      (betterPriority side) :=
    (hsorted.and hne2).imp fun h => priorityLe_ne_better side _ _ h.1 h.2
  haveI : IsAntisymm Order (betterPriority side) :=
    ⟨fun a b ha hb => betterPriority_asymm side a b ha hb⟩
  exact List.eq_of_perm_of_sorted (hperm1.trans hperm2.symm) h1 h2

/-- Witness for C1 on the spec's priority example: asks at prices 10, 10, 12
with ids 1, 2, 3 and a buy taker at price 15; the resolver lists the maker
pairs for id 1, then id 2, then id 3. -/
theorem c1_resolver_matches_engine_priority_witness :
    ((c1ob.bids.Pairwise fun a b => a.order_id < b.order_id) ∧
     (c1ob.asks.Pairwise fun a b => a.order_id < b.order_id)) ∧
    getRemainingAccounts c1ob Side.Buy 15 =
      (enginePriorityList Side.Buy 15 (oppositeSide c1ob Side.Buy)).flatMap
        fun o => [getAssociatedTokenAddressSync c1ob.baseMint o.owner,
                  getAssociatedTokenAddressSync c1ob.quoteMint o.owner] :=
  ⟨⟨by decide, by decide⟩,
   c1_resolver_matches_engine_priority c1ob Side.Buy 15 (by decide) (by decide)⟩

end SolanaOrderbook
